import Mathlib

/-!
Verification of the MergeBlocks block-merging pass.

This file gives a shallow embedding of `src/passes/MergeBlocks.cpp`:
the IR fragment the pass manipulates, the problem finder and break-value
stripper (`ProblemFinder`, `BreakValueDropper`), the core block flattener
(`optimizeBlock`) and the expression hoister (`MergeBlocks::optimize`
together with its per-kind drivers), and proves or refutes the stated
properties of the pass.

The effect oracle (`EffectAnalyzer`) is an external collaborator of the
pass; following the specification it is modelled as an abstract pair of
boolean functions (`hasSE` for `hasSideEffects`, `inval` for
`invalidates`) passed to every definition that consults it.
-/

namespace MergeBlocksPass

/-- IR value types: `none`, `unreachable`, or a concrete value type.
The four wasm concrete types are included; the pass only ever asks
whether a type is `none`, `unreachable`, or concrete. -/
inductive WType where
  | none
  | unreachable
  | i32
  | i64
  | f32
  | f64
deriving DecidableEq, Repr

/-- `isConcreteType` from wasm.h: a type other than `none`/`unreachable`. -/
def isConcreteType (t : WType) : Bool :=
  t != WType.none && t != WType.unreachable

/-- The IR expression tree, restricted to the node kinds that
`MergeBlocks.cpp` inspects or visits.  Every node carries its cached
`type` field, exactly as binaryen nodes do.  Kinds the pass does not
visit (If, Loop, constants, locals, ...) are collapsed into `other`,
which still carries an ordered child list so that walks recurse through
them; the pass only ever reads their `type`.  Block names are `Nat`. -/
inductive Expr where
  | block (name : Option Nat) (list : List Expr) (ty : WType)
  | br (name : Nat) (condition : Option Expr) (value : Option Expr) (ty : WType)
  | switch_ (targets : List Nat) (default_ : Nat) (condition : Expr)
      (value : Option Expr) (ty : WType)
  | drop (value : Expr) (ty : WType)
  | unary (value : Expr) (ty : WType)
  | binary (left : Expr) (right : Expr) (ty : WType)
  | select (ifTrue : Expr) (ifFalse : Expr) (condition : Expr) (ty : WType)
  | load (ptr : Expr) (ty : WType)
  | store (ptr : Expr) (value : Expr) (ty : WType)
  | call (operands : List Expr) (ty : WType)
  | callIndirect (operands : List Expr) (target : Expr) (ty : WType)
  | setLocal (value : Expr) (ty : WType)
  | ret (value : Option Expr) (ty : WType)
  | other (id : Nat) (children : List Expr) (ty : WType)
deriving Repr

/-- The cached `->type` field of a node. -/
def Expr.type : Expr → WType
  | .block _ _ t => t
  | .br _ _ _ t => t
  | .switch_ _ _ _ _ t => t
  | .drop _ t => t
  | .unary _ t => t
  | .binary _ _ t => t
  | .select _ _ _ t => t
  | .load _ t => t
  | .store _ _ t => t
  | .call _ t => t
  | .callIndirect _ _ t => t
  | .setLocal _ t => t
  | .ret _ t => t
  | .other _ _ t => t

/-- `hasUnreachableChild` (MergeBlocks.cpp:160): does any element of the
block's list have type `unreachable`? -/
def hasUnreachableChildL (l : List Expr) : Bool :=
  l.any (fun e => e.type == WType.unreachable)

mutual

/-- `ProblemFinder::visitBreak` counts conditional breaks (`br_if`s)
targeting the origin label; this counts them over a whole subtree, as
the post-order walk does. -/
def brIfsCount (L : Nat) : Expr → Nat
  | .block _ l _ => brIfsCountL L l
  | .br name cond value _ =>
      (if name = L && cond.isSome then 1 else 0) +
        brIfsCountO L cond + brIfsCountO L value
  | .switch_ _ _ cond value _ => brIfsCount L cond + brIfsCountO L value
  | .drop v _ => brIfsCount L v
  | .unary v _ => brIfsCount L v
  | .binary a b _ => brIfsCount L a + brIfsCount L b
  | .select a b c _ => brIfsCount L a + brIfsCount L b + brIfsCount L c
  | .load p _ => brIfsCount L p
  | .store p v _ => brIfsCount L p + brIfsCount L v
  | .call ops _ => brIfsCountL L ops
  | .callIndirect ops tgt _ => brIfsCountL L ops + brIfsCount L tgt
  | .setLocal v _ => brIfsCount L v
  | .ret v _ => brIfsCountO L v
  | .other _ ch _ => brIfsCountL L ch

/-- `brIfsCount` over a child list. -/
def brIfsCountL (L : Nat) : List Expr → Nat
  | [] => 0
  | e :: l => brIfsCount L e + brIfsCountL L l

/-- `brIfsCount` over an optional child. -/
def brIfsCountO (L : Nat) : Option Expr → Nat
  | Option.none => 0
  | Option.some e => brIfsCount L e

end

mutual

/-- `ProblemFinder::visitDrop` counts drops whose value is a conditional
break targeting the origin label; this counts them over a subtree. -/
def droppedBrIfsCount (L : Nat) : Expr → Nat
  | .block _ l _ => droppedBrIfsCountL L l
  | .br _ cond value _ => droppedBrIfsCountO L cond + droppedBrIfsCountO L value
  | .switch_ _ _ cond value _ =>
      droppedBrIfsCount L cond + droppedBrIfsCountO L value
  | .drop v _ =>
      (match v with
       | .br name cond _ _ => if name = L && cond.isSome then 1 else 0
       | _ => 0) + droppedBrIfsCount L v
  | .unary v _ => droppedBrIfsCount L v
  | .binary a b _ => droppedBrIfsCount L a + droppedBrIfsCount L b
  | .select a b c _ =>
      droppedBrIfsCount L a + droppedBrIfsCount L b + droppedBrIfsCount L c
  | .load p _ => droppedBrIfsCount L p
  | .store p v _ => droppedBrIfsCount L p + droppedBrIfsCount L v
  | .call ops _ => droppedBrIfsCountL L ops
  | .callIndirect ops tgt _ => droppedBrIfsCountL L ops + droppedBrIfsCount L tgt
  | .setLocal v _ => droppedBrIfsCount L v
  | .ret v _ => droppedBrIfsCountO L v
  | .other _ ch _ => droppedBrIfsCountL L ch

/-- `droppedBrIfsCount` over a child list. -/
def droppedBrIfsCountL (L : Nat) : List Expr → Nat
  | [] => 0
  | e :: l => droppedBrIfsCount L e + droppedBrIfsCountL L l

/-- `droppedBrIfsCount` over an optional child. -/
def droppedBrIfsCountO (L : Nat) : Option Expr → Nat
  | Option.none => 0
  | Option.some e => droppedBrIfsCount L e

end

mutual

/-- `ProblemFinder`'s `foundProblem` flag: some break to the origin has a
value with side effects (`visitBreak`), or some switch targets the origin
(`visitSwitch`).  `hasSE` is the effect oracle; a null break value has no
side effects. -/
def pfProblem (hasSE : Expr → Bool) (L : Nat) : Expr → Bool
  | .block _ l _ => pfProblemL hasSE L l
  | .br name cond value _ =>
      (name = L && (match value with
                    | Option.some v => hasSE v
                    | Option.none => false)) ||
        pfProblemO hasSE L cond || pfProblemO hasSE L value
  | .switch_ targets default_ cond value _ =>
      (default_ = L) || targets.any (fun t => t = L) ||
        pfProblem hasSE L cond || pfProblemO hasSE L value
  | .drop v _ => pfProblem hasSE L v
  | .unary v _ => pfProblem hasSE L v
  | .binary a b _ => pfProblem hasSE L a || pfProblem hasSE L b
  | .select a b c _ =>
      pfProblem hasSE L a || pfProblem hasSE L b || pfProblem hasSE L c
  | .load p _ => pfProblem hasSE L p
  | .store p v _ => pfProblem hasSE L p || pfProblem hasSE L v
  | .call ops _ => pfProblemL hasSE L ops
  | .callIndirect ops tgt _ => pfProblemL hasSE L ops || pfProblem hasSE L tgt
  | .setLocal v _ => pfProblem hasSE L v
  | .ret v _ => pfProblemO hasSE L v
  | .other _ ch _ => pfProblemL hasSE L ch

/-- `pfProblem` over a child list. -/
def pfProblemL (hasSE : Expr → Bool) (L : Nat) : List Expr → Bool
  | [] => false
  | e :: l => pfProblem hasSE L e || pfProblemL hasSE L l

/-- `pfProblem` over an optional child. -/
def pfProblemO (hasSE : Expr → Bool) (L : Nat) : Option Expr → Bool
  | Option.none => false
  | Option.some e => pfProblem hasSE L e

end

/-- `ProblemFinder::found()` (MergeBlocks.cpp:119):
`foundProblem || brIfs > droppedBrIfs`, evaluated after the walk. -/
def pfFound (hasSE : Expr → Bool) (L : Nat) (e : Expr) : Bool :=
  pfProblem hasSE L e || decide (brIfsCount L e > droppedBrIfsCount L e)

/-- Modelled from the spec: `Node.finalize()` for Block is not under
`src/`; per the spec a block's type is "equal to the type of its tail
element (or `none` if empty)". -/
def blockFinalizeType (l : List Expr) : WType :=
  match l.getLast? with
  | Option.none => WType.none
  | Option.some e => e.type

/-- Modelled from the spec: `Builder::make_drop` is not under `src/`;
per the spec a Drop has "one child; type `none`". -/
def makeDrop (e : Expr) : Expr :=
  .drop e WType.none

/-- Modelled from the spec: `Builder::make_sequence(a, b)` is not under
`src/`; it produces the sequence of the two expressions, i.e. an
anonymous two-element block, finalized from its children. -/
def makeSequence (a b : Expr) : Expr :=
  .block Option.none [a, b] (blockFinalizeType [a, b])

/-- Modelled from the spec: `Break::finalize()` is not under `src/`;
per the spec "a conditional break with a value has a type equal to the
value's type ...; an unconditional break has type `unreachable`", and a
conditional break with no value has type `none`. -/
def brFinalType (cond : Option Expr) (value : Option Expr) : WType :=
  match cond with
  | Option.some _ =>
      match value with
      | Option.some v => v.type
      | Option.none => WType.none
  | Option.none => WType.unreachable

/-- `BreakValueDropper::visitBreak` (MergeBlocks.cpp:135): for a break
that carries a value and targets the origin label, either replace the
whole break by its value (value of type `unreachable`), or clear the
value, re-finalize the break, and replace it by
`makeSequence(makeDrop(value), break)`. -/
def bvdHookBreak (L : Nat) (name : Nat) (cond : Option Expr)
    (value : Option Expr) (t : WType) : Expr :=
  match value with
  | Option.some v =>
      if name = L then
        if v.type = WType.unreachable then v
        else
          makeSequence (makeDrop v)
            (.br name cond Option.none (brFinalType cond Option.none))
      else .br name cond value t
  | Option.none => .br name cond Option.none t

/-- `BreakValueDropper::visitDrop` (MergeBlocks.cpp:150): a drop of a
non-concrete-typed value is replaced by the value itself. -/
def bvdHookDrop (v : Expr) (t : WType) : Expr :=
  if isConcreteType v.type then .drop v t else v

/-- The "drop a merged concrete middle element" step of `optimizeBlock`
(MergeBlocks.cpp:234-243): every element of the merged list other than
the last whose type is concrete is wrapped in a drop. -/
def wrapMiddles (l : List Expr) : List Expr :=
  match l.getLast? with
  | Option.none => l
  | Option.some last =>
      l.dropLast.map (fun e => if isConcreteType e.type then makeDrop e else e)
        ++ [last]

mutual

/-- `BreakValueDropper`'s post-order walk with origin label `L`:
children are rewritten first, then the per-kind hooks fire
(`visitBlock` runs `optimizeBlock`, `visitBreak` strips the value,
`visitDrop` removes drops of non-concrete values).  `φ` is fuel; at
fuel 0 the input is returned unchanged. -/
def bvdWalk (hasSE : Expr → Bool) : Nat → Nat → Expr → Expr
  | 0, _, e => e
  | φ + 1, L, e =>
    match e with
    | .block n l t =>
        let l' := bvdWalkL hasSE φ L l
        .block n (obGo hasSE φ φ l').1 t
    | .br name cond value t =>
        bvdHookBreak L name (bvdWalkO hasSE φ L cond) (bvdWalkO hasSE φ L value) t
    | .switch_ tg d c v t =>
        .switch_ tg d (bvdWalk hasSE φ L c) (bvdWalkO hasSE φ L v) t
    | .drop v t => bvdHookDrop (bvdWalk hasSE φ L v) t
    | .unary v t => .unary (bvdWalk hasSE φ L v) t
    | .binary a b t => .binary (bvdWalk hasSE φ L a) (bvdWalk hasSE φ L b) t
    | .select a b c t =>
        .select (bvdWalk hasSE φ L a) (bvdWalk hasSE φ L b) (bvdWalk hasSE φ L c) t
    | .load p t => .load (bvdWalk hasSE φ L p) t
    | .store p v t => .store (bvdWalk hasSE φ L p) (bvdWalk hasSE φ L v) t
    | .call ops t => .call (bvdWalkL hasSE φ L ops) t
    | .callIndirect ops tgt t =>
        .callIndirect (bvdWalkL hasSE φ L ops) (bvdWalk hasSE φ L tgt) t
    | .setLocal v t => .setLocal (bvdWalk hasSE φ L v) t
    | .ret v t => .ret (bvdWalkO hasSE φ L v) t
    | .other i ch t => .other i (bvdWalkL hasSE φ L ch) t
termination_by φ _ _ => (φ, 0)

/-- `bvdWalk` over a child list. -/
def bvdWalkL (hasSE : Expr → Bool) : Nat → Nat → List Expr → List Expr
  | 0, _, l => l
  | _ + 1, _, [] => []
  | φ + 1, L, e :: l => bvdWalk hasSE φ L e :: bvdWalkL hasSE φ L l
termination_by φ _ _ => (φ, 0)

/-- `bvdWalk` over an optional child. -/
def bvdWalkO (hasSE : Expr → Bool) : Nat → Nat → Option Expr → Option Expr
  | 0, _, o => o
  | _ + 1, _, Option.none => Option.none
  | φ + 1, L, Option.some e => Option.some (bvdWalk hasSE φ L e)
termination_by φ _ _ => (φ, 0)

/-- The drop-of-block rewrite of `optimizeBlock` (MergeBlocks.cpp:180-217):
if the element is a `Drop` of a block, and the block has no unreachable
child, and (for a labeled block) the problem finder reports no problem
after the break-value stripper has run, sink the drop onto the block's
tail and return the resulting block; otherwise return `Option.none` (no
rewrite).  A drop of an empty block is ill-typed input (a drop must
consume a value); the model performs no rewrite there, where the C++
would read past the end of the list. -/
def trySink (hasSE : Expr → Bool) : Nat → Expr → Option Expr
  | 0, _ => Option.none
  | φ + 1, e =>
    match e with
    | .drop v _ =>
      match v with
      | .block name lst bty =>
          if hasUnreachableChildL lst then Option.none
          else
            let stripped : Option Expr :=
              match name with
              | Option.some L =>
                  if pfFound hasSE L (.block name lst bty) then Option.none
                  else Option.some (bvdWalk hasSE φ L (.block name lst bty))
              | Option.none => Option.some (.block name lst bty)
            match stripped with
            | Option.none => Option.none
            | Option.some (.block n2 l2 _) =>
                match l2.getLast? with
                | Option.none => Option.none
                | Option.some back =>
                    let l3 := l2.dropLast ++ [.drop back WType.none]
                    Option.some (.block n2 l3 (blockFinalizeType l3))
            | Option.some _ => Option.none
      | _ => Option.none
    | _ => Option.none
termination_by φ _ => (φ, 0)

/-- One pass of the `for` loop of `optimizeBlock` (MergeBlocks.cpp:175-248)
over the still-unprocessed suffix, with the processed prefix accumulated
in reverse in `acc` and `sank` recording whether a drop-of-block rewrite
fired earlier in this pass.  Returns the resulting list and the `more`
flag.  A successful splice rebuilds the whole list, wraps concrete
middles, and ends the pass (the C++ `break`). -/
def forPass (hasSE : Expr → Bool) :
    Nat → List Expr → List Expr → Bool → (List Expr × Bool)
  | 0, rest, acc, sank => (acc.reverse ++ rest, sank)
  | _ + 1, [], acc, sank => (acc.reverse, sank)
  | φ + 1, e :: rest, acc, sank =>
      let s := trySink hasSE φ e
      let e' := s.getD e
      let sank' := sank || s.isSome
      match e' with
      | .block Option.none lst _ =>
          (wrapMiddles (acc.reverse ++ lst ++ rest), true)
      | _ => forPass hasSE φ rest (e' :: acc) sank'
termination_by φ _ _ _ => (φ, 0)

/-- The `while (more)` fixed-point loop of `optimizeBlock`
(MergeBlocks.cpp:171-249).  `k` is the loop-iteration fuel, `φ` the
(fixed) fuel handed to each pass for the stripper recursion.  Returns
`(list, changed, finished)`; `finished` is false only if the iteration
fuel ran out before a pass reported no change. -/
def obGo (hasSE : Expr → Bool) : Nat → Nat → List Expr → (List Expr × Bool × Bool)
  | 0, _, l => (l, false, false)
  | k + 1, φ, l =>
      let p := forPass hasSE φ l [] false
      if p.2 then
        let r := obGo hasSE k φ p.1
        (r.1, true, r.2.2)
      else (p.1, false, true)
termination_by k φ _ => (φ, k)

end

/-- `optimizeBlock` (MergeBlocks.cpp:170): run the fixed-point loop on
the block's list; the loop never writes the block's `type` field, and
the final `curr->finalize(curr->type)` re-finalizes to the type read on
entry, so the type field is the entry type either way. -/
def optimizeBlockF (hasSE : Expr → Bool) (fuel : Nat) (e : Expr) : Expr :=
  match e with
  | .block n l ty => .block n (obGo hasSE fuel fuel l).1 ty
  | _ => e

/-! ## The expression hoister (`MergeBlocks::optimize` and its drivers)

During one `visit` of a parent expression `curr`, the only sharing in
the heap reachable from the visit is that the outer block's last list
element is a *pointer to `curr` itself* (`block->list.back() = curr`,
line 316).  The outer block's list is therefore modelled as a list of
`OElem`, where `OElem.parentRef` stands for that pointer; all other
elements are ordinary trees.  The C++ assertion
`assert(outer->list.back() == curr)` (line 323) is a pointer identity
test and is modelled as the check that the last element is
`parentRef`; its failure is modelled as `Except.error ()`. -/

/-- An element of the outer block's list during a hoist: an ordinary
expression, or the pointer to the parent being visited. -/
inductive OElem where
  | expr (e : Expr)
  | parentRef
deriving Repr

/-- Is this outer-list element the pointer to the visited parent? -/
def OElem.isParentRef : OElem → Bool
  | .parentRef => true
  | .expr _ => false

/-- The outer block being built by a sequence of `optimize` calls on the
operands of one parent: its list and its (already finalized) type. -/
structure OuterBlock where
  list : List OElem
  ty : WType
deriving Repr

/-- Result of one `optimize` call on a non-null operand slot: the new
slot contents, the outer block (created, extended, or passed through),
and whether `replaceCurrent` was invoked by this call (true exactly when
this call created the outer block). -/
structure HoistResult where
  child : Expr
  outer : Option OuterBlock
  replaced : Bool
deriving Repr

/-- `MergeBlocks::optimize` (MergeBlocks.cpp:280-333) for a non-null
operand slot `child` of a parent with type `currType`.  `inval d c`
models `EffectAnalyzer(options, d).invalidates(EffectAnalyzer(options, c))`.
The dependency arguments model the `Expression**` parameters: `Option.none`
is a null pointer, `Option.some s` a pointer to a slot holding `s`. -/
def optimizeS (inval : Expr → Expr → Bool) (currType : WType) (child : Expr)
    (outer : Option OuterBlock) (dep1 dep2 : Option (Option Expr)) :
    Except Unit HoistResult :=
  if (match dep1 with
      | Option.some (Option.some d) => inval d child
      | _ => false) then
    .ok ⟨child, outer, false⟩
  else if (match dep2 with
           | Option.some (Option.some d) => inval d child
           | _ => false) then
    .ok ⟨child, outer, false⟩
  else
    match child with
    | .block Option.none lst bty =>
        if lst.length ≥ 2 then
          if currType = WType.none && hasUnreachableChildL lst then
            .ok ⟨child, outer, false⟩
          else
            match lst.getLast? with
            | Option.none => .ok ⟨child, outer, false⟩
            | Option.some back =>
                if back.type = WType.unreachable then .ok ⟨child, outer, false⟩
                else if bty ≠ back.type then .ok ⟨child, outer, false⟩
                else
                  match outer with
                  | Option.none =>
                      .ok ⟨back,
                        Option.some ⟨lst.dropLast.map OElem.expr ++ [OElem.parentRef],
                          currType⟩,
                        true⟩
                  | Option.some o =>
                      match o.list.getLast? with
                      | Option.some el =>
                          if el.isParentRef then
                            .ok ⟨back,
                              Option.some ⟨o.list.dropLast
                                ++ lst.dropLast.map OElem.expr ++ [OElem.parentRef],
                                o.ty⟩,
                              false⟩
                          else .error ()
                      | Option.none => .error ()
        else .ok ⟨child, outer, false⟩
    | _ => .ok ⟨child, outer, false⟩

/-- `MergeBlocks::optimize` for a possibly-null operand slot
(`if (!child) return outer`, line 282). -/
def optimizeO (inval : Expr → Expr → Bool) (currType : WType)
    (child : Option Expr) (outer : Option OuterBlock)
    (dep1 dep2 : Option (Option Expr)) :
    Except Unit (Option Expr × Option OuterBlock × Bool) :=
  match child with
  | Option.none => .ok (Option.none, outer, false)
  | Option.some c =>
      (optimizeS inval currType c outer dep1 dep2).map
        (fun r => (Option.some r.child, r.outer, r.replaced))

/-- `MergeBlocks::visitBinary` (MergeBlocks.cpp:340): hoist `left`, then
`right` with (the pointer to) `left` as dependency. -/
def visitBinaryM (inval : Expr → Expr → Bool) (left right : Expr) (ty : WType) :
    Except Unit ((Expr × Expr) × Option OuterBlock) :=
  match optimizeS inval ty left Option.none Option.none Option.none with
  | .error e => .error e
  | .ok r1 =>
      match optimizeS inval ty right r1.outer
          (Option.some (Option.some r1.child)) Option.none with
      | .error e => .error e
      | .ok r2 => .ok ((r1.child, r2.child), r2.outer)

/-- `MergeBlocks::visitStore` (MergeBlocks.cpp:343): hoist `ptr`, then
`value` with (the pointer to) `ptr` as dependency.  `visitAtomicRMW`
is identical. -/
def visitStoreM (inval : Expr → Expr → Bool) (ptr value : Expr) (ty : WType) :
    Except Unit ((Expr × Expr) × Option OuterBlock) :=
  match optimizeS inval ty ptr Option.none Option.none Option.none with
  | .error e => .error e
  | .ok r1 =>
      match optimizeS inval ty value r1.outer
          (Option.some (Option.some r1.child)) Option.none with
      | .error e => .error e
      | .ok r2 => .ok ((r1.child, r2.child), r2.outer)

/-- `MergeBlocks::visitBreak` (MergeBlocks.cpp:374): hoist `value`, then
`condition` with (the pointer to) `value` as dependency.  `visitSwitch`
uses the same shape. -/
def visitBreakM (inval : Expr → Expr → Bool) (cond value : Option Expr)
    (ty : WType) :
    Except Unit ((Option Expr × Option Expr) × Option OuterBlock) :=
  match optimizeO inval ty value Option.none Option.none Option.none with
  | .error e => .error e
  | .ok r1 =>
      match optimizeO inval ty cond r1.2.1 (Option.some r1.1) Option.none with
      | .error e => .error e
      | .ok r2 => .ok ((r2.1, r1.1), r2.2.1)

/-- `MergeBlocks::optimizeTernary` (MergeBlocks.cpp:349): stop as soon
as an operand (inspected in order) has side effects; used by
`visitAtomicCmpxchg` and `visitSelect`. -/
def optimizeTernaryM (hasSE : Expr → Bool) (inval : Expr → Expr → Bool)
    (ty : WType) (first second third : Expr) :
    Except Unit ((Expr × Expr × Expr) × Option OuterBlock) :=
  if hasSE first then .ok ((first, second, third), Option.none)
  else
    match optimizeS inval ty first Option.none Option.none Option.none with
    | .error e => .error e
    | .ok r1 =>
        if hasSE second then .ok ((r1.child, second, third), r1.outer)
        else
          match optimizeS inval ty second r1.outer Option.none Option.none with
          | .error e => .error e
          | .ok r2 =>
              if hasSE third then .ok ((r1.child, r2.child, third), r2.outer)
              else
                match optimizeS inval ty third r2.outer Option.none Option.none with
                | .error e => .error e
                | .ok r3 => .ok ((r1.child, r2.child, r3.child), r3.outer)

/-- `MergeBlocks::handleCall` (MergeBlocks.cpp:381), the operand loop
shared by `visitCall` and `visitCallImport`, and reused inline by
`visitCallIndirect`: for each operand in order, stop the whole rewrite
if it has side effects, otherwise hoist it into the chained outer
block.  The final `Bool` records whether the loop aborted. -/
def handleCallM (hasSE : Expr → Bool) (inval : Expr → Expr → Bool)
    (ty : WType) : List Expr → Option OuterBlock →
    Except Unit (List Expr × Option OuterBlock × Bool)
  | [], outer => .ok ([], outer, false)
  | op :: rest, outer =>
      if hasSE op then .ok (op :: rest, outer, true)
      else
        match optimizeS inval ty op outer Option.none Option.none with
        | .error e => .error e
        | .ok r =>
            match handleCallM hasSE inval ty rest r.outer with
            | .error e => .error e
            | .ok rr => .ok (r.child :: rr.1, rr.2.1, rr.2.2)

/-- `MergeBlocks::visitCallIndirect` (MergeBlocks.cpp:395): the operand
loop, then the call target under the same stop-on-any-side-effect rule. -/
def visitCallIndirectM (hasSE : Expr → Bool) (inval : Expr → Expr → Bool)
    (ty : WType) (ops : List Expr) (target : Expr) :
    Except Unit ((List Expr × Expr) × Option OuterBlock) :=
  match handleCallM hasSE inval ty ops Option.none with
  | .error e => .error e
  | .ok r =>
      if r.2.2 then .ok ((r.1, target), r.2.1)
      else if hasSE target then .ok ((r.1, target), r.2.1)
      else
        match optimizeS inval ty target r.2.1 Option.none Option.none with
        | .error e => .error e
        | .ok rt => .ok ((r.1, rt.child), rt.outer)

/-- Resolve the outer block produced by a visit into a tree: the
`parentRef` element becomes the (final) parent expression. -/
def applyOuter (curr : Expr) : Option OuterBlock → Expr
  | Option.none => curr
  | Option.some o =>
      .block Option.none
        (o.list.map (fun el => match el with
          | OElem.expr x => x
          | OElem.parentRef => curr))
        o.ty

/-- A Boolean version of the invariant the chaining step relies on: the
outer block (if any) ends with the pointer to the visited parent. -/
def outerEndsWithParent : Option OuterBlock → Bool
  | Option.none => true
  | Option.some o =>
      match o.list.getLast? with
      | Option.some el => el.isParentRef
      | Option.none => false

/-- Does an `Except`-valued hoist step succeed (no assertion failure)? -/
def exceptOk {α : Type} : Except Unit α → Bool
  | .ok _ => true
  | .error _ => false

/-- The shape precondition of the single-operand hoist rewrite: an
anonymous block with at least two list elements whose last element is
not unreachable. -/
def hoistableShape (e : Expr) : Bool :=
  match e with
  | .block Option.none lst _ =>
      decide (lst.length ≥ 2) &&
        (match lst.getLast? with
         | Option.some back => back.type != WType.unreachable
         | Option.none => false)
  | _ => false


/-- The termination measure of a subtree: `v` counts Break nodes that
carry a value, `b` counts Block nodes, `s` is the node count, and `d`
sums, over every Drop node, the size of that drop's subtree.  The
rewrites of the flattener strictly decrease `(v, b, s, d)`
lexicographically. -/
structure Meas where
  v : Nat
  b : Nat
  s : Nat
  d : Nat
deriving Repr

instance : Add Meas := ⟨fun a c => ⟨a.v + c.v, a.b + c.b, a.s + c.s, a.d + c.d⟩⟩

/-- Graded order: each component is compared only when all earlier
components are equal.  This is the non-strict version. -/
def Meas.le (a c : Meas) : Prop :=
  a.v ≤ c.v ∧ (a.v = c.v → a.b ≤ c.b) ∧
    (a.v = c.v ∧ a.b = c.b → a.s ≤ c.s) ∧
    (a.v = c.v ∧ a.b = c.b ∧ a.s = c.s → a.d ≤ c.d)

/-- Strict graded (lexicographic) order. -/
def Meas.lt (a c : Meas) : Prop :=
  a.v < c.v ∨ (a.v = c.v ∧ (a.b < c.b ∨ (a.b = c.b ∧
    (a.s < c.s ∨ (a.s = c.s ∧ a.d < c.d)))))

mutual

/-- Measure of an expression. -/
def meas : Expr → Meas
  | .block _ l _ => measL l + ⟨0, 1, 1, 0⟩
  | .br _ cond value _ =>
      measO cond + measO value +
        ⟨(if value.isSome then 1 else 0), 0, 1, 0⟩
  | .switch_ _ _ c v _ => meas c + measO v + ⟨0, 0, 1, 0⟩
  | .drop v _ =>
      meas v + ⟨0, 0, 1, 1 + (meas v).s⟩
  | .unary v _ => meas v + ⟨0, 0, 1, 0⟩
  | .binary a c _ => meas a + meas c + ⟨0, 0, 1, 0⟩
  | .select a c e _ => meas a + meas c + meas e + ⟨0, 0, 1, 0⟩
  | .load p _ => meas p + ⟨0, 0, 1, 0⟩
  | .store p v _ => meas p + meas v + ⟨0, 0, 1, 0⟩
  | .call ops _ => measL ops + ⟨0, 0, 1, 0⟩
  | .callIndirect ops tgt _ => measL ops + meas tgt + ⟨0, 0, 1, 0⟩
  | .setLocal v _ => meas v + ⟨0, 0, 1, 0⟩
  | .ret v _ => measO v + ⟨0, 0, 1, 0⟩
  | .other _ ch _ => measL ch + ⟨0, 0, 1, 0⟩

/-- Measure of a child list. -/
def measL : List Expr → Meas
  | [] => ⟨0, 0, 0, 0⟩
  | e :: l => meas e + measL l

/-- Measure of an optional child. -/
def measO : Option Expr → Meas
  | Option.none => ⟨0, 0, 0, 0⟩
  | Option.some e => meas e

end


mutual

/-- The full `MergeBlocks` pass: a post-order walk applying the per-kind
visitors; `replaceCurrent` of a hoist is resolved by `applyOuter`. -/
def runPass (hasSE : Expr → Bool) (inval : Expr → Expr → Bool) (fuel : Nat) :
    Expr → Expr
  | .block n l t =>
      optimizeBlockF hasSE fuel (.block n (runPassL hasSE inval fuel l) t)
  | .br name cond value t =>
      let c' := runPassO hasSE inval fuel cond
      let v' := runPassO hasSE inval fuel value
      match visitBreakM inval c' v' t with
      | .ok ((c2, v2), outer) => applyOuter (.br name c2 v2 t) outer
      | .error _ => .br name c' v' t
  | .switch_ tg d c v t =>
      let c' := runPass hasSE inval fuel c
      let v' := runPassO hasSE inval fuel v
      match visitBreakM inval (Option.some c') v' t with
      | .ok ((Option.some c2, v2), outer) =>
          applyOuter (.switch_ tg d c2 v2 t) outer
      | _ => .switch_ tg d c' v' t
  | .drop v t =>
      let v' := runPass hasSE inval fuel v
      match optimizeS inval t v' Option.none Option.none Option.none with
      | .ok r => applyOuter (.drop r.child t) r.outer
      | .error _ => .drop v' t
  | .unary v t =>
      let v' := runPass hasSE inval fuel v
      match optimizeS inval t v' Option.none Option.none Option.none with
      | .ok r => applyOuter (.unary r.child t) r.outer
      | .error _ => .unary v' t
  | .binary a b t =>
      let a' := runPass hasSE inval fuel a
      let b' := runPass hasSE inval fuel b
      match visitBinaryM inval a' b' t with
      | .ok ((a2, b2), outer) => applyOuter (.binary a2 b2 t) outer
      | .error _ => .binary a' b' t
  | .select a b c t =>
      let a' := runPass hasSE inval fuel a
      let b' := runPass hasSE inval fuel b
      let c' := runPass hasSE inval fuel c
      match optimizeTernaryM hasSE inval t a' b' c' with
      | .ok ((a2, b2, c2), outer) => applyOuter (.select a2 b2 c2 t) outer
      | .error _ => .select a' b' c' t
  | .load p t =>
      let p' := runPass hasSE inval fuel p
      match optimizeS inval t p' Option.none Option.none Option.none with
      | .ok r => applyOuter (.load r.child t) r.outer
      | .error _ => .load p' t
  | .store p v t =>
      let p' := runPass hasSE inval fuel p
      let v' := runPass hasSE inval fuel v
      match visitStoreM inval p' v' t with
      | .ok ((p2, v2), outer) => applyOuter (.store p2 v2 t) outer
      | .error _ => .store p' v' t
  | .call ops t =>
      let ops' := runPassL hasSE inval fuel ops
      match handleCallM hasSE inval t ops' Option.none with
      | .ok (ops2, outer, _) => applyOuter (.call ops2 t) outer
      | .error _ => .call ops' t
  | .callIndirect ops tgt t =>
      let ops' := runPassL hasSE inval fuel ops
      let tgt' := runPass hasSE inval fuel tgt
      match visitCallIndirectM hasSE inval t ops' tgt' with
      | .ok ((ops2, tgt2), outer) => applyOuter (.callIndirect ops2 tgt2 t) outer
      | .error _ => .callIndirect ops' tgt' t
  | .setLocal v t =>
      let v' := runPass hasSE inval fuel v
      match optimizeS inval t v' Option.none Option.none Option.none with
      | .ok r => applyOuter (.setLocal r.child t) r.outer
      | .error _ => .setLocal v' t
  | .ret v t =>
      let v' := runPassO hasSE inval fuel v
      match optimizeO inval t v' Option.none Option.none Option.none with
      | .ok (v2, outer, _) => applyOuter (.ret v2 t) outer
      | .error _ => .ret v' t
  | .other i ch t => .other i (runPassL hasSE inval fuel ch) t

def runPassL (hasSE : Expr → Bool) (inval : Expr → Expr → Bool) (fuel : Nat) :
    List Expr → List Expr
  | [] => []
  | e :: l => runPass hasSE inval fuel e :: runPassL hasSE inval fuel l

def runPassO (hasSE : Expr → Bool) (inval : Expr → Expr → Bool) (fuel : Nat) :
    Option Expr → Option Expr
  | Option.none => Option.none
  | Option.some e => Option.some (runPass hasSE inval fuel e)

end

/-! ## Theorems -/

theorem Meas.add_def (a c : Meas) :
    a + c = ⟨a.v + c.v, a.b + c.b, a.s + c.s, a.d + c.d⟩ := rfl

theorem Meas.le_refl (a : Meas) : Meas.le a a := by
  simp [Meas.le]

theorem Meas.le_of_lt {a c : Meas} (h : Meas.lt a c) : Meas.le a c := by
  cases a; cases c; simp only [Meas.lt, Meas.le] at *; omega

theorem Meas.le_trans {a c e : Meas} (h1 : Meas.le a c) (h2 : Meas.le c e) :
    Meas.le a e := by
  cases a; cases c; cases e; simp only [Meas.le] at *; omega

theorem Meas.lt_of_lt_of_le {a c e : Meas} (h1 : Meas.lt a c) (h2 : Meas.le c e) :
    Meas.lt a e := by
  cases a; cases c; cases e; simp only [Meas.lt, Meas.le] at *; omega

theorem Meas.lt_of_le_of_lt {a c e : Meas} (h1 : Meas.le a c) (h2 : Meas.lt c e) :
    Meas.lt a e := by
  cases a; cases c; cases e; simp only [Meas.lt, Meas.le] at *; omega

theorem Meas.add_le_add {a a' c c' : Meas} (h1 : Meas.le a a') (h2 : Meas.le c c') :
    Meas.le (a + c) (a' + c') := by
  cases a; cases a'; cases c; cases c'
  simp only [Meas.le, Meas.add_def] at *; omega

theorem Meas.add_le_add_right {a a' : Meas} (c : Meas) (h1 : Meas.le a a') :
    Meas.le (a + c) (a' + c) :=
  Meas.add_le_add h1 (Meas.le_refl c)

theorem Meas.add_lt_add_of_lt_of_le {a a' c c' : Meas}
    (h1 : Meas.lt a a') (h2 : Meas.le c c') : Meas.lt (a + c) (a' + c') := by
  cases a; cases a'; cases c; cases c'
  simp only [Meas.lt, Meas.le, Meas.add_def] at *; omega

theorem Meas.add_lt_add_of_le_of_lt {a a' c c' : Meas}
    (h1 : Meas.le a a') (h2 : Meas.lt c c') : Meas.lt (a + c) (a' + c') := by
  cases a; cases a'; cases c; cases c'
  simp only [Meas.lt, Meas.le, Meas.add_def] at *; omega

theorem Meas.le_of_v_lt {a c : Meas} (h : a.v < c.v) : Meas.le a c := by
  cases a; cases c; simp only [Meas.le] at *; omega


mutual

/-- Every drop-of-a-conditional-break to `L` contains a conditional
break to `L`, so the dropped count never exceeds the break count. -/
theorem droppedBrIfs_le_brIfs (L : Nat) (e : Expr) :
    droppedBrIfsCount L e ≤ brIfsCount L e := by
  cases e with
  | block n l t => exact droppedBrIfs_le_brIfsL L l
  | br name cond value t =>
      simp only [droppedBrIfsCount, brIfsCount]
      have h1 := droppedBrIfs_le_brIfsO L cond
      have h2 := droppedBrIfs_le_brIfsO L value
      omega
  | switch_ tg d c v t =>
      have h1 := droppedBrIfs_le_brIfs L c
      have h2 := droppedBrIfs_le_brIfsO L v
      simp only [droppedBrIfsCount, brIfsCount]; omega
  | drop v t =>
      have hv := droppedBrIfs_le_brIfs L v
      simp only [droppedBrIfsCount, brIfsCount]
      cases v with
      | br name cond value ty =>
          have h1 := droppedBrIfs_le_brIfsO L cond
          have h2 := droppedBrIfs_le_brIfsO L value
          simp only [droppedBrIfsCount, brIfsCount] at hv ⊢
          by_cases h : (name = L && cond.isSome) = true
          · simp only [h, if_true] at hv ⊢; omega
          · simp only [h, if_false] at hv ⊢; omega
      | _ => simpa using hv
  | unary v t => simpa [droppedBrIfsCount, brIfsCount] using droppedBrIfs_le_brIfs L v
  | binary a b t =>
      have h1 := droppedBrIfs_le_brIfs L a; have h2 := droppedBrIfs_le_brIfs L b
      simp only [droppedBrIfsCount, brIfsCount]; omega
  | select a b c t =>
      have h1 := droppedBrIfs_le_brIfs L a; have h2 := droppedBrIfs_le_brIfs L b
      have h3 := droppedBrIfs_le_brIfs L c
      simp only [droppedBrIfsCount, brIfsCount]; omega
  | load p t => simpa [droppedBrIfsCount, brIfsCount] using droppedBrIfs_le_brIfs L p
  | store p v t =>
      have h1 := droppedBrIfs_le_brIfs L p; have h2 := droppedBrIfs_le_brIfs L v
      simp only [droppedBrIfsCount, brIfsCount]; omega
  | call ops t => simpa [droppedBrIfsCount, brIfsCount] using droppedBrIfs_le_brIfsL L ops
  | callIndirect ops tgt t =>
      have h1 := droppedBrIfs_le_brIfsL L ops; have h2 := droppedBrIfs_le_brIfs L tgt
      simp only [droppedBrIfsCount, brIfsCount]; omega
  | setLocal v t => simpa [droppedBrIfsCount, brIfsCount] using droppedBrIfs_le_brIfs L v
  | ret v t => simpa [droppedBrIfsCount, brIfsCount] using droppedBrIfs_le_brIfsO L v
  | other i ch t => simpa [droppedBrIfsCount, brIfsCount] using droppedBrIfs_le_brIfsL L ch

/-- List version of `droppedBrIfs_le_brIfs`. -/
theorem droppedBrIfs_le_brIfsL (L : Nat) (l : List Expr) :
    droppedBrIfsCountL L l ≤ brIfsCountL L l := by
  cases l with
  | nil => simp [droppedBrIfsCountL, brIfsCountL]
  | cons e rest =>
      have h1 := droppedBrIfs_le_brIfs L e
      have h2 := droppedBrIfs_le_brIfsL L rest
      simp only [droppedBrIfsCountL, brIfsCountL]; omega

/-- Option version of `droppedBrIfs_le_brIfs`. -/
theorem droppedBrIfs_le_brIfsO (L : Nat) (o : Option Expr) :
    droppedBrIfsCountO L o ≤ brIfsCountO L o := by
  cases o with
  | none => simp [droppedBrIfsCountO, brIfsCountO]
  | some e => simpa [droppedBrIfsCountO, brIfsCountO] using droppedBrIfs_le_brIfs L e

end

/-- **C6.** For every subtree walked by the problem finder, the count of
conditional breaks targeting the origin label is at least the count of
such conditional breaks appearing directly inside a Drop, so the
assertion `brIfs >= droppedBrIfs` in `ProblemFinder::found()` never
fails. -/
theorem problemFinder_assert_never_fails (L : Nat) (e : Expr) :
    brIfsCount L e ≥ droppedBrIfsCount L e :=
  droppedBrIfs_le_brIfs L e

/-- **C4.** `optimizeBlock` mutates the block in place; the fixed-point
loop never writes the block's type field and the final
`curr->finalize(curr->type)` re-finalizes to the type the block had on
entry, so on exit the type equals the entry type. -/
theorem optimizeBlock_preserves_type (hasSE : Expr → Bool) (fuel : Nat)
    (e : Expr) : (optimizeBlockF hasSE fuel e).type = e.type := by
  cases e <;> simp [optimizeBlockF, Expr.type]

/-- **C10.** `BreakValueDropper::visitDrop` replaces every drop of a
value of non-concrete type (`none` or `unreachable`) by the value
itself, and keeps drops of concrete-typed values unchanged. -/
theorem breakValueDropper_visitDrop (v : Expr) (t : WType) :
    ((v.type = WType.none ∨ v.type = WType.unreachable) → bvdHookDrop v t = v) ∧
    (isConcreteType v.type = true → bvdHookDrop v t = .drop v t) := by
  constructor
  · intro h
    rcases h with h | h <;> simp [bvdHookDrop, isConcreteType, h]
  · intro h
    simp [bvdHookDrop, h]

/-- Witness for `breakValueDropper_visitDrop` at concrete inputs: a drop
of a `none`-typed call is replaced by the call, and a drop of an
`i32`-typed load is kept. -/
theorem breakValueDropper_visitDrop_witness :
    bvdHookDrop (.call [] WType.none) WType.none = .call [] WType.none ∧
    bvdHookDrop (.load (.other 0 [] WType.i32) WType.i32) WType.none
      = .drop (.load (.other 0 [] WType.i32) WType.i32) WType.none :=
  ⟨(breakValueDropper_visitDrop (.call [] WType.none) WType.none).1
      (Or.inl rfl),
   (breakValueDropper_visitDrop (.load (.other 0 [] WType.i32) WType.i32)
      WType.none).2 rfl⟩

/-- **C5.** `BreakValueDropper::visitBreak` on a break to the origin
label carrying value `v`: if `v` is unreachable the whole break is
replaced by `v`; otherwise the value is cleared, the break re-finalized,
and the break replaced by the sequence `Drop(v); Break(L)`. -/
theorem breakValueDropper_visitBreak (L : Nat) (cond : Option Expr)
    (v : Expr) (t : WType) :
    (v.type = WType.unreachable →
      bvdHookBreak L L cond (Option.some v) t = v) ∧
    (v.type ≠ WType.unreachable →
      bvdHookBreak L L cond (Option.some v) t =
        makeSequence (makeDrop v)
          (.br L cond Option.none (brFinalType cond Option.none))) := by
  constructor
  · intro h; simp [bvdHookBreak, h]
  · intro h; simp [bvdHookBreak, h]

/-- Witness for `breakValueDropper_visitBreak` at concrete inputs. -/
theorem breakValueDropper_visitBreak_witness :
    bvdHookBreak 3 3 Option.none (Option.some (.other 0 [] WType.unreachable))
        WType.unreachable = .other 0 [] WType.unreachable ∧
    bvdHookBreak 3 3 Option.none (Option.some (.other 1 [] WType.i32))
        WType.unreachable =
      makeSequence (makeDrop (.other 1 [] WType.i32))
        (.br 3 Option.none Option.none (brFinalType Option.none Option.none)) :=
  ⟨(breakValueDropper_visitBreak 3 Option.none (.other 0 [] WType.unreachable)
      WType.unreachable).1 rfl,
   (breakValueDropper_visitBreak 3 Option.none (.other 1 [] WType.i32)
      WType.unreachable).2 (by simp [Expr.type])⟩


theorem optimizeS_ok_of_inv (inval : Expr → Expr → Bool) (currType : WType)
    (child : Expr) (outer : Option OuterBlock) (dep1 dep2 : Option (Option Expr))
    (h : outerEndsWithParent outer = true) :
    ∃ r : HoistResult, optimizeS inval currType child outer dep1 dep2 = .ok r ∧
      outerEndsWithParent r.outer = true := by
  unfold optimizeS
  split
  · exact ⟨_, rfl, h⟩
  split
  · exact ⟨_, rfl, h⟩
  split
  · rename_i lst bty
    split
    · split
      · exact ⟨_, rfl, h⟩
      · split
        · exact ⟨_, rfl, h⟩
        · rename_i back hback
          split
          · exact ⟨_, rfl, h⟩
          · split
            · exact ⟨_, rfl, h⟩
            · split
              · refine ⟨_, rfl, ?_⟩
                simp [outerEndsWithParent, List.getLast?_concat, OElem.isParentRef]
              · rename_i o
                split
                · rename_i el hel
                  split
                  · refine ⟨_, rfl, ?_⟩
                    simp only [outerEndsWithParent]
                    rw [List.getLast?_concat]
                    simp [OElem.isParentRef]
                  · rename_i hnel
                    exfalso
                    simp only [outerEndsWithParent, hel] at h
                    exact hnel h
                · rename_i hel
                  exfalso
                  simp only [outerEndsWithParent, hel] at h
                  exact Bool.noConfusion h
    · exact ⟨_, rfl, h⟩
  · exact ⟨_, rfl, h⟩

theorem optimizeO_ok_of_inv (inval : Expr → Expr → Bool) (currType : WType)
    (child : Option Expr) (outer : Option OuterBlock) (dep1 dep2 : Option (Option Expr))
    (h : outerEndsWithParent outer = true) :
    ∃ c o rep, optimizeO inval currType child outer dep1 dep2 = .ok (c, o, rep) ∧
      outerEndsWithParent o = true := by
  match child with
  | Option.none => exact ⟨_, _, _, rfl, h⟩
  | Option.some c =>
      obtain ⟨r, e1, h1⟩ := optimizeS_ok_of_inv inval currType c outer dep1 dep2 h
      exact ⟨Option.some r.child, r.outer, r.replaced,
        by simp [optimizeO, e1, Except.map], h1⟩

theorem visitBinaryM_ok (inval : Expr → Expr → Bool) (l r : Expr) (ty : WType) :
    exceptOk (visitBinaryM inval l r ty) = true := by
  obtain ⟨r1, e1, h1⟩ :=
    optimizeS_ok_of_inv inval ty l Option.none Option.none Option.none rfl
  obtain ⟨r2, e2, h2⟩ :=
    optimizeS_ok_of_inv inval ty r r1.outer
      (Option.some (Option.some r1.child)) Option.none h1
  unfold visitBinaryM
  rw [e1]; dsimp only; rw [e2]; rfl

theorem visitStoreM_ok (inval : Expr → Expr → Bool) (p v : Expr) (ty : WType) :
    exceptOk (visitStoreM inval p v ty) = true := by
  obtain ⟨r1, e1, h1⟩ :=
    optimizeS_ok_of_inv inval ty p Option.none Option.none Option.none rfl
  obtain ⟨r2, e2, h2⟩ :=
    optimizeS_ok_of_inv inval ty v r1.outer
      (Option.some (Option.some r1.child)) Option.none h1
  unfold visitStoreM
  rw [e1]; dsimp only; rw [e2]; rfl

theorem visitBreakM_ok (inval : Expr → Expr → Bool) (c v : Option Expr) (ty : WType) :
    exceptOk (visitBreakM inval c v ty) = true := by
  obtain ⟨c1, o1, rep1, e1, h1⟩ :=
    optimizeO_ok_of_inv inval ty v Option.none Option.none Option.none rfl
  obtain ⟨c2, o2, rep2, e2, h2⟩ :=
    optimizeO_ok_of_inv inval ty c o1 (Option.some c1) Option.none h1
  unfold visitBreakM
  rw [e1]; dsimp only; rw [e2]; rfl

theorem optimizeTernaryM_ok (hasSE : Expr → Bool) (inval : Expr → Expr → Bool)
    (ty : WType) (a b c : Expr) :
    exceptOk (optimizeTernaryM hasSE inval ty a b c) = true := by
  unfold optimizeTernaryM
  split
  · rfl
  · obtain ⟨r1, e1, h1⟩ :=
      optimizeS_ok_of_inv inval ty a Option.none Option.none Option.none rfl
    rw [e1]; dsimp only
    split
    · rfl
    · obtain ⟨r2, e2, h2⟩ :=
        optimizeS_ok_of_inv inval ty b r1.outer Option.none Option.none h1
      rw [e2]; dsimp only
      split
      · rfl
      · obtain ⟨r3, e3, h3⟩ :=
          optimizeS_ok_of_inv inval ty c r2.outer Option.none Option.none h2
        rw [e3]; rfl

theorem handleCallM_ok (hasSE : Expr → Bool) (inval : Expr → Expr → Bool)
    (ty : WType) :
    ∀ (ops : List Expr) (outer : Option OuterBlock),
      outerEndsWithParent outer = true →
      ∃ l o ab, handleCallM hasSE inval ty ops outer = .ok (l, o, ab) ∧
        outerEndsWithParent o = true
  | [], outer, h => ⟨[], outer, false, rfl, h⟩
  | op :: rest, outer, h => by
      unfold handleCallM
      split
      · exact ⟨_, _, _, rfl, h⟩
      · obtain ⟨r, e1, h1⟩ :=
          optimizeS_ok_of_inv inval ty op outer Option.none Option.none h
        obtain ⟨l, o, ab, e2, h2⟩ := handleCallM_ok hasSE inval ty rest r.outer h1
        exact ⟨_, _, _, by rw [e1]; dsimp only; rw [e2], h2⟩

theorem visitCallIndirectM_ok (hasSE : Expr → Bool) (inval : Expr → Expr → Bool)
    (ty : WType) (ops : List Expr) (tgt : Expr) :
    exceptOk (visitCallIndirectM hasSE inval ty ops tgt) = true := by
  obtain ⟨l, o, ab, e1, h1⟩ := handleCallM_ok hasSE inval ty ops Option.none rfl
  unfold visitCallIndirectM
  rw [e1]; dsimp only
  split
  · rfl
  · split
    · rfl
    · obtain ⟨rt, e2, h2⟩ :=
        optimizeS_ok_of_inv inval ty tgt o Option.none Option.none h1
      rw [e2]; rfl


/-- **C3.** The hoister rewrites an operand slot only when it holds an
anonymous block with at least two list elements whose last element is
not unreachable; for every other slot contents (a non-block, a labeled
block, a short block, or a block with an unreachable tail) no rewrite is
performed: the slot is unchanged, `replaceCurrent` is not called, and
the existing outer block (possibly null) is returned. -/
theorem hoister_only_rewrites_hoistable_shapes (inval : Expr → Expr → Bool)
    (currType : WType) (child : Expr) (outer : Option OuterBlock)
    (dep1 dep2 : Option (Option Expr))
    (h : hoistableShape child = false) :
    optimizeS inval currType child outer dep1 dep2 = .ok ⟨child, outer, false⟩ := by
  unfold optimizeS
  split
  · rfl
  · split
    · rfl
    · split
      · rename_i lst bty
        simp only [hoistableShape] at h
        split
        · rename_i hlen
          split
          · rfl
          · split
            · rfl
            · rename_i back hback
              split
              · rfl
              · rename_i hbu
                exfalso
                rw [hback] at h
                simp [hlen, hbu] at h
        · rfl
      · rfl

/-- Witness for `hoister_only_rewrites_hoistable_shapes`: a non-block
operand and a labeled two-element block are both left unchanged. -/
theorem hoister_only_rewrites_hoistable_shapes_witness :
    optimizeS (fun _ _ => false) WType.i32 (.other 7 [] WType.i32)
        Option.none Option.none Option.none
      = .ok ⟨.other 7 [] WType.i32, Option.none, false⟩ ∧
    optimizeS (fun _ _ => false) WType.i32
        (.block (Option.some 1) [.other 0 [] WType.none, .other 7 [] WType.i32]
          WType.i32)
        Option.none Option.none Option.none
      = .ok ⟨.block (Option.some 1) [.other 0 [] WType.none, .other 7 [] WType.i32]
          WType.i32, Option.none, false⟩ :=
  ⟨hoister_only_rewrites_hoistable_shapes (fun _ _ => false) WType.i32
      (.other 7 [] WType.i32) Option.none Option.none Option.none rfl,
   hoister_only_rewrites_hoistable_shapes (fun _ _ => false) WType.i32
      (.block (Option.some 1) [.other 0 [] WType.none, .other 7 [] WType.i32]
        WType.i32) Option.none Option.none Option.none rfl⟩

/-- **C7.** Whenever the hoister chains a second or later operand of the
same parent into an already-existing outer block, the outer block's last
list element is (the pointer to) the parent expression, so the assertion
`assert(outer->list.back() == curr)` before the pop-and-append step
never fails: every chaining driver returns without an assertion
failure, for every input and every effect oracle. -/
theorem hoister_chain_assert_never_fails (hasSE : Expr → Bool)
    (inval : Expr → Expr → Bool) (ty : WType) :
    (∀ l r, exceptOk (visitBinaryM inval l r ty) = true) ∧
    (∀ p v, exceptOk (visitStoreM inval p v ty) = true) ∧
    (∀ c v, exceptOk (visitBreakM inval c v ty) = true) ∧
    (∀ a b c, exceptOk (optimizeTernaryM hasSE inval ty a b c) = true) ∧
    (∀ ops, exceptOk (handleCallM hasSE inval ty ops Option.none) = true) ∧
    (∀ ops tgt, exceptOk (visitCallIndirectM hasSE inval ty ops tgt) = true) := by
  refine ⟨fun l r => visitBinaryM_ok inval l r ty,
    fun p v => visitStoreM_ok inval p v ty,
    fun c v => visitBreakM_ok inval c v ty,
    optimizeTernaryM_ok hasSE inval ty,
    ?_, visitCallIndirectM_ok hasSE inval ty⟩
  intro ops
  obtain ⟨l, o, ab, e, _⟩ := handleCallM_ok hasSE inval ty ops Option.none rfl
  simp [e, exceptOk]


/-- Counterexample to C1 as stated: an anonymous direct-child block both
of whose elements' types include `unreachable` IS spliced into its
parent's statement list by the flattener — the direct-splice path of
`optimizeBlock` never consults `hasUnreachableChild` (only the
drop-of-block path does). -/
theorem unreachable_child_block_spliced_counterexample :
    hasUnreachableChildL [.call [] WType.none, .other 0 [] WType.unreachable]
        = true ∧
    optimizeBlockF (fun _ => false) 4
        (.block Option.none
          [.block Option.none [.call [] WType.none, .other 0 [] WType.unreachable]
            WType.unreachable]
          WType.unreachable)
      = .block Option.none [.call [] WType.none, .other 0 [] WType.unreachable]
          WType.unreachable := by
  constructor
  · rfl
  · simp [optimizeBlockF, obGo, forPass, trySink, wrapMiddles, isConcreteType,
      Expr.type, makeDrop]

/-- **C1 (amended).** The protections that do exist: a block with an
unreachable child is never moved by the drop-of-block rewrite of the
flattener, and the hoister never moves such a block out of a parent
whose type is `none`. -/
theorem unreachable_child_protections (hasSE : Expr → Bool) :
    (∀ (φ : Nat) (name : Option Nat) (lst : List Expr) (bty dropTy : WType),
        hasUnreachableChildL lst = true →
        trySink hasSE φ (.drop (.block name lst bty) dropTy) = Option.none) ∧
    (∀ (inval : Expr → Expr → Bool) (name : Option Nat) (lst : List Expr)
        (bty : WType) (outer : Option OuterBlock) (dep1 dep2 : Option (Option Expr)),
        hasUnreachableChildL lst = true →
        optimizeS inval WType.none (.block name lst bty) outer dep1 dep2
          = .ok ⟨.block name lst bty, outer, false⟩) := by
  constructor
  · intro φ name lst bty dropTy h
    cases φ with
    | zero => rw [trySink.eq_def]
    | succ φ => rw [trySink.eq_def]; simp [h]
  · intro inval name lst bty outer dep1 dep2 h
    cases name with
    | none =>
        unfold optimizeS
        split
        · rfl
        · split
          · rfl
          · dsimp only
            split
            · simp [h]
            · rfl
    | some nm =>
        unfold optimizeS
        split
        · rfl
        · split
          · rfl
          · rfl

/-- Witness for `unreachable_child_protections` at a concrete block with
an unreachable child. -/
theorem unreachable_child_protections_witness :
    trySink (fun _ => false) 5
        (.drop (.block Option.none
          [.other 0 [] WType.unreachable, .other 1 [] WType.none] WType.none)
          WType.none) = Option.none ∧
    optimizeS (fun _ _ => false) WType.none
        (.block Option.none
          [.other 0 [] WType.unreachable, .other 1 [] WType.none] WType.none)
        Option.none Option.none Option.none
      = .ok ⟨.block Option.none
          [.other 0 [] WType.unreachable, .other 1 [] WType.none] WType.none,
          Option.none, false⟩ :=
  ⟨(unreachable_child_protections (fun _ => false)).1 5 Option.none
      [.other 0 [] WType.unreachable, .other 1 [] WType.none]
      WType.none WType.none rfl,
   (unreachable_child_protections (fun _ => false)).2 (fun _ _ => false)
      Option.none [.other 0 [] WType.unreachable, .other 1 [] WType.none]
      WType.none Option.none Option.none Option.none rfl⟩


/-- Counterexample to C2 as stated: in `optimizeTernary`, when the
second operand (a call) has side effects but the first (a block) does
not, the first operand's block has already been hoisted and an outer
block created by the time the rewrite stops. -/
theorem ternary_partial_hoist_counterexample :
    (fun e => match e with | Expr.call _ _ => true | _ => false)
        (Expr.call [] WType.i32) = true ∧
    optimizeTernaryM (fun e => match e with | Expr.call _ _ => true | _ => false)
        (fun _ _ => false) WType.i32
        (.block Option.none [.other 0 [] WType.none, .other 2 [] WType.i32]
          WType.i32)
        (.call [] WType.i32) (.other 3 [] WType.i32)
      = .ok ((.other 2 [] WType.i32, .call [] WType.i32, .other 3 [] WType.i32),
          Option.some ⟨[.expr (.other 0 [] WType.none), .parentRef], WType.i32⟩) :=
  ⟨rfl, rfl⟩

/-- **C2 (amended).** The drivers examine operands left to right and
stop the rewrite at the first operand that has side effects: that
operand and every later operand (for CallIndirect including the target)
are not hoisted, and if the first operand has side effects no rewrite
happens at all; operands before the first side-effecting one may
already have been hoisted and an outer block created. -/
theorem sideeffect_stops_rest_of_rewrite (hasSE : Expr → Bool)
    (inval : Expr → Expr → Bool) (ty : WType) :
    (∀ f s t, hasSE f = true →
        optimizeTernaryM hasSE inval ty f s t = .ok ((f, s, t), Option.none)) ∧
    (∀ f s t, hasSE s = true → ∃ f' outer,
        optimizeTernaryM hasSE inval ty f s t = .ok ((f', s, t), outer)) ∧
    (∀ f s t, hasSE t = true → ∃ f' s' outer,
        optimizeTernaryM hasSE inval ty f s t = .ok ((f', s', t), outer)) ∧
    (∀ pre op post outer, outerEndsWithParent outer = true →
        (∀ x ∈ pre, hasSE x = false) → hasSE op = true →
        ∃ pre' o', handleCallM hasSE inval ty (pre ++ op :: post) outer
            = .ok (pre' ++ op :: post, o', true) ∧ pre'.length = pre.length) ∧
    (∀ pre op post target, (∀ x ∈ pre, hasSE x = false) → hasSE op = true →
        ∃ pre' o', visitCallIndirectM hasSE inval ty (pre ++ op :: post) target
            = .ok ((pre' ++ op :: post, target), o')) := by
  have hcall : ∀ pre op post outer, outerEndsWithParent outer = true →
      (∀ x ∈ pre, hasSE x = false) → hasSE op = true →
      ∃ pre' o', handleCallM hasSE inval ty (pre ++ op :: post) outer
          = .ok (pre' ++ op :: post, o', true) ∧ pre'.length = pre.length ∧
          outerEndsWithParent o' = true := by
    intro pre
    induction pre with
    | nil =>
        intro op post outer hinv _ hop
        refine ⟨[], outer, ?_, rfl, hinv⟩
        rw [handleCallM.eq_def]
        simp [hop]
    | cons x xs ih =>
        intro op post outer hinv hpre hop
        have hx : hasSE x = false := hpre x (List.mem_cons_self x xs)
        obtain ⟨r, e1, h1⟩ :=
          optimizeS_ok_of_inv inval ty x outer Option.none Option.none hinv
        obtain ⟨pre', o', e2, hlen, h2⟩ :=
          ih op post r.outer h1 (fun y hy => hpre y (List.mem_cons_of_mem x hy)) hop
        refine ⟨r.child :: pre', o', ?_, by simp [hlen], h2⟩
        rw [handleCallM.eq_def]
        simp only [List.cons_append]
        rw [if_neg (by simp [hx]), e1]
        dsimp only
        rw [e2]
  refine ⟨?_, ?_, ?_, ?_, ?_⟩
  · intro f s t h
    simp [optimizeTernaryM, h]
  · intro f s t h
    unfold optimizeTernaryM
    split
    · exact ⟨f, Option.none, rfl⟩
    · obtain ⟨r1, e1, h1⟩ :=
        optimizeS_ok_of_inv inval ty f Option.none Option.none Option.none rfl
      refine ⟨r1.child, r1.outer, ?_⟩
      rw [e1]
  · intro f s t h
    unfold optimizeTernaryM
    split
    · exact ⟨f, s, Option.none, rfl⟩
    · obtain ⟨r1, e1, h1⟩ :=
        optimizeS_ok_of_inv inval ty f Option.none Option.none Option.none rfl
      rw [e1]; dsimp only
      split
      · exact ⟨r1.child, s, r1.outer, rfl⟩
      · obtain ⟨r2, e2, h2⟩ :=
          optimizeS_ok_of_inv inval ty s r1.outer Option.none Option.none h1
        refine ⟨r1.child, r2.child, r2.outer, ?_⟩
        rw [e2]
  · intro pre op post outer hinv hpre hop
    obtain ⟨pre', o', e, hlen, _⟩ := hcall pre op post outer hinv hpre hop
    exact ⟨pre', o', e, hlen⟩
  · intro pre op post target hpre hop
    obtain ⟨pre', o', e, hlen, _⟩ := hcall pre op post Option.none rfl hpre hop
    refine ⟨pre', o', ?_⟩
    unfold visitCallIndirectM
    rw [e]; simp

/-- Witness for `sideeffect_stops_rest_of_rewrite`: with an effect
oracle under which calls (only) have side effects, each stop behavior is
exhibited at a concrete input. -/
theorem sideeffect_stops_rest_of_rewrite_witness :
    optimizeTernaryM (fun e => match e with | Expr.call _ _ => true | _ => false)
        (fun _ _ => false) WType.i32 (.call [] WType.i32) (.other 1 [] WType.i32)
        (.other 2 [] WType.i32)
      = .ok ((.call [] WType.i32, .other 1 [] WType.i32, .other 2 [] WType.i32),
          Option.none) ∧
    (∃ f' outer,
      optimizeTernaryM (fun e => match e with | Expr.call _ _ => true | _ => false)
          (fun _ _ => false) WType.i32 (.other 1 [] WType.i32) (.call [] WType.i32)
          (.other 2 [] WType.i32)
        = .ok ((f', .call [] WType.i32, .other 2 [] WType.i32), outer)) ∧
    (∃ f' s' outer,
      optimizeTernaryM (fun e => match e with | Expr.call _ _ => true | _ => false)
          (fun _ _ => false) WType.i32 (.other 1 [] WType.i32)
          (.other 2 [] WType.i32) (.call [] WType.i32)
        = .ok ((f', s', .call [] WType.i32), outer)) ∧
    (∃ pre' o',
      handleCallM (fun e => match e with | Expr.call _ _ => true | _ => false)
          (fun _ _ => false) WType.i32
          ([.other 1 [] WType.i32] ++ .call [] WType.i32 :: [.other 2 [] WType.i32])
          Option.none
        = .ok (pre' ++ .call [] WType.i32 :: [.other 2 [] WType.i32], o', true) ∧
        pre'.length = 1) ∧
    (∃ pre' o',
      visitCallIndirectM (fun e => match e with | Expr.call _ _ => true | _ => false)
          (fun _ _ => false) WType.i32
          ([.other 1 [] WType.i32] ++ .call [] WType.i32 :: [.other 2 [] WType.i32])
          (.other 9 [] WType.i32)
        = .ok ((pre' ++ .call [] WType.i32 :: [.other 2 [] WType.i32],
            .other 9 [] WType.i32), o')) := by
  have hmem : ∀ x ∈ [Expr.other 1 [] WType.i32],
      (fun e => match e with | Expr.call _ _ => true | _ => false) x = false := by
    intro x hx
    rw [List.mem_singleton.mp hx]
  refine ⟨?_, ?_, ?_, ?_, ?_⟩
  · exact (sideeffect_stops_rest_of_rewrite _ _ _).1 _ _ _ rfl
  · exact (sideeffect_stops_rest_of_rewrite _ _ _).2.1 _ _ _ rfl
  · exact (sideeffect_stops_rest_of_rewrite _ _ _).2.2.1 _ _ _ rfl
  · exact (sideeffect_stops_rest_of_rewrite _ _ _).2.2.2.1 _ _ _ _ rfl hmem rfl
  · exact (sideeffect_stops_rest_of_rewrite _ _ _).2.2.2.2 _ _ _ _ hmem rfl

theorem Meas.add_zero (a : Meas) : a + ⟨0, 0, 0, 0⟩ = a := by
  cases a; simp [Meas.add_def]

theorem Meas.zero_add (a : Meas) : (⟨0, 0, 0, 0⟩ : Meas) + a = a := by
  cases a; simp [Meas.add_def]

theorem Meas.add_comm (a c : Meas) : a + c = c + a := by
  cases a; cases c; simp [Meas.add_def]; omega

theorem Meas.add_assoc (a c e : Meas) : a + c + e = a + (c + e) := by
  cases a; cases c; cases e; simp [Meas.add_def]; omega

theorem measL_append (l1 l2 : List Expr) :
    measL (l1 ++ l2) = measL l1 + measL l2 := by
  induction l1 with
  | nil => simp [measL, Meas.zero_add]
  | cons e l ih =>
      simp only [List.cons_append, measL, List.append_eq, ih, Meas.add_assoc]

theorem measL_reverse (l : List Expr) : measL l.reverse = measL l := by
  induction l with
  | nil => rfl
  | cons e l ih =>
      simp [List.reverse_cons, measL_append, ih, measL, Meas.add_zero,
        Meas.add_comm]

theorem measL_dropLast {l : List Expr} {back : Expr}
    (h : l.getLast? = Option.some back) :
    measL l = measL l.dropLast + meas back := by
  induction l with
  | nil => simp at h
  | cons e rest ih =>
      cases rest with
      | nil =>
          simp only [List.getLast?_singleton, Option.some.injEq] at h
          subst h
          simp [measL, List.dropLast, Meas.zero_add, Meas.add_zero, Meas.add_comm]
      | cons e2 rest2 =>
          have h2 : (e2 :: rest2).getLast? = Option.some back := by
            rw [← h]; simp [List.getLast?_cons_cons]
          have ih2 := ih h2
          calc measL (e :: e2 :: rest2) = meas e + measL (e2 :: rest2) := rfl
            _ = meas e + (measL ((e2 :: rest2).dropLast) + meas back) := by
                rw [ih2]
            _ = meas e + measL ((e2 :: rest2).dropLast) + meas back := by
                rw [Meas.add_assoc]
            _ = measL ((e :: e2 :: rest2).dropLast) + meas back := by
                rw [List.dropLast_cons₂]; rfl

/-- `bvdWalkO` on `none` is `none` at any fuel. -/
theorem bvdWalkO_none (hasSE : Expr → Bool) (φ : Nat) (L : Nat) :
    bvdWalkO hasSE φ L Option.none = Option.none := by
  cases φ <;> simp [bvdWalkO.eq_def]

/-- `bvdWalkO` on `some v` rewrites the contents with one less fuel
(and at fuel 0 both are the identity). -/
theorem bvdWalkO_some (hasSE : Expr → Bool) (φ : Nat) (L : Nat) (v : Expr) :
    bvdWalkO hasSE φ L (Option.some v)
      = Option.some (bvdWalk hasSE (φ - 1) L v) := by
  cases φ with
  | zero => rw [bvdWalkO.eq_def, bvdWalk.eq_def]
  | succ φ => rw [bvdWalkO.eq_def]; simp

/-- Wrapping concrete middles in drops changes neither the
break-with-value count nor the block count. -/
theorem wrap_vb (l : List Expr) :
    (measL (wrapMiddles l)).v = (measL l).v ∧
    (measL (wrapMiddles l)).b = (measL l).b := by
  have elem : ∀ e : Expr,
      (meas (if isConcreteType e.type then makeDrop e else e)).v = (meas e).v ∧
      (meas (if isConcreteType e.type then makeDrop e else e)).b = (meas e).b := by
    intro e
    by_cases h : isConcreteType e.type
    · simp [h, makeDrop, meas, Meas.add_def]
    · simp [h]
  have mapvb : ∀ (l2 : List Expr),
      (measL (l2.map (fun e => if isConcreteType e.type then makeDrop e else e))).v
        = (measL l2).v ∧
      (measL (l2.map (fun e => if isConcreteType e.type then makeDrop e else e))).b
        = (measL l2).b := by
    intro l2
    induction l2 with
    | nil => simp [measL]
    | cons e rest ih =>
        simp only [List.map_cons, measL, Meas.add_def]
        have he := elem e
        omega
  unfold wrapMiddles
  split
  · exact ⟨rfl, rfl⟩
  · rename_i last hlast
    rw [measL_dropLast hlast]
    rw [measL_append]
    have hm := mapvb l.dropLast
    simp only [measL, Meas.add_def, Meas.add_zero]
    omega

/-- One step of the measure-monotonicity proof: the break-value
stripper's walk at fuel `φ+1` does not increase the measure, given the
corresponding facts at fuels `≤ φ`. -/
theorem bvdWalk_mono_step (hasSE : Expr → Bool) (φ : Nat)
    (ihA : ∀ ψ, ψ ≤ φ → ∀ L e, Meas.le (meas (bvdWalk hasSE ψ L e)) (meas e))
    (ihB : ∀ L l, Meas.le (measL (bvdWalkL hasSE φ L l)) (measL l))
    (ihF : ∀ k l, Meas.le (measL (obGo hasSE k φ l).1) (measL l)) :
    ∀ L e, Meas.le (meas (bvdWalk hasSE (φ + 1) L e)) (meas e) := by
  have ihC : ∀ (L : Nat) (o : Option Expr),
      Meas.le (measO (bvdWalkO hasSE φ L o)) (measO o) := by
    intro L o
    cases o with
    | none => rw [bvdWalkO_none]; exact Meas.le_refl _
    | some v =>
        rw [bvdWalkO_some]
        simpa [measO] using ihA (φ - 1) (by omega) L v
  intro L e
  cases e with
  | block n l t =>
      rw [bvdWalk.eq_def]; dsimp only
      simp only [meas]
      exact Meas.add_le_add (Meas.le_trans (ihF φ _) (ihB L l)) (Meas.le_refl _)
  | br name cond value t =>
      rw [bvdWalk.eq_def]; dsimp only
      cases value with
      | none =>
          rw [bvdWalkO_none]
          simp only [bvdHookBreak, meas]
          exact Meas.add_le_add
            (Meas.add_le_add (ihC L cond) (Meas.le_refl _)) (Meas.le_refl _)
      | some v0 =>
          rw [bvdWalkO_some]
          simp only [bvdHookBreak]
          split
          · split
            · -- replaced by the (unreachable-typed) value
              apply Meas.le_of_v_lt
              have h1 := (ihA (φ - 1) (by omega) L v0).1
              simp only [meas, measO, Meas.add_def, Option.isSome_some,
                if_true]
              omega
            · -- replaced by the sequence Drop(v); br
              apply Meas.le_of_v_lt
              have h1 := (ihA (φ - 1) (by omega) L v0).1
              have h2 := (ihC L cond).1
              simp only [makeSequence, makeDrop, meas, measL, measO,
                Meas.add_def, Option.isSome_some, Option.isSome_none,
                if_true, Bool.false_eq_true, if_false] at *
              omega
          · -- break to another label: plain rebuild
            simp only [meas, measO]
            exact Meas.add_le_add (Meas.add_le_add (ihC L cond)
              (by simpa [measO] using ihA (φ - 1) (by omega) L v0))
              (Meas.le_refl _)
  | switch_ tg d c v t =>
      rw [bvdWalk.eq_def]; dsimp only
      simp only [meas]
      exact Meas.add_le_add (Meas.add_le_add (ihA φ (Nat.le_refl φ) L c)
        (ihC L v)) (Meas.le_refl _)
  | drop v t =>
      rw [bvdWalk.eq_def]; dsimp only
      have hv := ihA φ (Nat.le_refl φ) L v
      simp only [bvdHookDrop]
      split
      · simp only [meas]
        revert hv
        generalize meas (bvdWalk hasSE φ L v) = m'
        generalize meas v = m
        intro hv
        cases m'; cases m
        simp only [Meas.le, Meas.add_def] at *
        omega
      · simp only [meas]
        revert hv
        generalize meas (bvdWalk hasSE φ L v) = m'
        generalize meas v = m
        intro hv
        cases m'; cases m
        simp only [Meas.le, Meas.add_def] at *
        omega
  | unary v t =>
      rw [bvdWalk.eq_def]; dsimp only
      simp only [meas]
      exact Meas.add_le_add (ihA φ (Nat.le_refl φ) L v) (Meas.le_refl _)
  | binary a b t =>
      rw [bvdWalk.eq_def]; dsimp only
      simp only [meas]
      exact Meas.add_le_add (Meas.add_le_add (ihA φ (Nat.le_refl φ) L a)
        (ihA φ (Nat.le_refl φ) L b)) (Meas.le_refl _)
  | select a b c t =>
      rw [bvdWalk.eq_def]; dsimp only
      simp only [meas]
      exact Meas.add_le_add (Meas.add_le_add (Meas.add_le_add
        (ihA φ (Nat.le_refl φ) L a) (ihA φ (Nat.le_refl φ) L b))
        (ihA φ (Nat.le_refl φ) L c)) (Meas.le_refl _)
  | load p t =>
      rw [bvdWalk.eq_def]; dsimp only
      simp only [meas]
      exact Meas.add_le_add (ihA φ (Nat.le_refl φ) L p) (Meas.le_refl _)
  | store p v t =>
      rw [bvdWalk.eq_def]; dsimp only
      simp only [meas]
      exact Meas.add_le_add (Meas.add_le_add (ihA φ (Nat.le_refl φ) L p)
        (ihA φ (Nat.le_refl φ) L v)) (Meas.le_refl _)
  | call ops t =>
      rw [bvdWalk.eq_def]; dsimp only
      simp only [meas]
      exact Meas.add_le_add (ihB L ops) (Meas.le_refl _)
  | callIndirect ops tgt t =>
      rw [bvdWalk.eq_def]; dsimp only
      simp only [meas]
      exact Meas.add_le_add (Meas.add_le_add (ihB L ops)
        (ihA φ (Nat.le_refl φ) L tgt)) (Meas.le_refl _)
  | setLocal v t =>
      rw [bvdWalk.eq_def]; dsimp only
      simp only [meas]
      exact Meas.add_le_add (ihA φ (Nat.le_refl φ) L v) (Meas.le_refl _)
  | ret v t =>
      rw [bvdWalk.eq_def]; dsimp only
      simp only [meas]
      exact Meas.add_le_add (ihC L v) (Meas.le_refl _)
  | other i ch t =>
      rw [bvdWalk.eq_def]; dsimp only
      simp only [meas]
      exact Meas.add_le_add (ihB L ch) (Meas.le_refl _)

/-- Core arithmetic of the drop-sink rewrite: wrapping the (possibly
stripped) block's tail in the reused drop strictly decreases the
measure relative to dropping the whole original block. -/
theorem sink_core {sbM blkM : Meas} {sback : Nat}
    (hle : Meas.le sbM blkM) (hs : sback < sbM.s) :
    Meas.lt (sbM + ⟨0, 0, 1, 1 + sback⟩) (blkM + ⟨0, 0, 1, 1 + blkM.s⟩) := by
  cases sbM; cases blkM
  simp only [Meas.le, Meas.lt, Meas.add_def] at *
  omega

/-- `meas` on a drop node, unfolded. -/
theorem drop_meas (v : Expr) (t : WType) :
    meas (.drop v t) = meas v + ⟨0, 0, 1, 1 + (meas v).s⟩ := by
  simp [meas]

/-- Measure of the block produced by the sink rewrite, in terms of the
block it was produced from. -/
theorem meas_sunk {l2 : List Expr} {back : Expr}
    (n2 n3 : Option Nat) (ty ty2 : WType)
    (h : l2.getLast? = Option.some back) :
    meas (.block n2 (l2.dropLast ++ [.drop back WType.none]) ty)
      = meas (.block n3 l2 ty2) + ⟨0, 0, 1, 1 + (meas back).s⟩ := by
  have hd := measL_dropLast h
  simp only [meas, measL_append, hd, measL]
  generalize measL l2.dropLast = A
  generalize meas back = mb
  cases A; cases mb
  simp only [Meas.add_def, Meas.mk.injEq]
  omega

/-- The tail's size is strictly below its block's size. -/
theorem s_back_lt {l2 : List Expr} {back : Expr} (n2 : Option Nat)
    (ty : WType) (h : l2.getLast? = Option.some back) :
    (meas back).s < (meas (.block n2 l2 ty)).s := by
  have hd := measL_dropLast h
  simp only [meas, hd, Meas.add_def]
  omega

/-- One step of the measure proof: a successful drop-sink at fuel `φ+1`
strictly decreases the measure, given walk monotonicity at fuel `φ`. -/
theorem trySink_lt_step (hasSE : Expr → Bool) (φ : Nat)
    (ihA : ∀ L e, Meas.le (meas (bvdWalk hasSE φ L e)) (meas e)) :
    ∀ e e', trySink hasSE (φ + 1) e = Option.some e' →
      Meas.lt (meas e') (meas e) := by
  intro e e' h
  rw [trySink.eq_def] at h
  dsimp only at h
  split at h
  · -- e is a drop
    split at h
    · -- its value is a block
      split at h
      · exact absurd h (by simp)
      · split at h
        · -- stripped = none
          exact absurd h (by simp)
        · -- stripped = some block
          rename_i n2 l2 t2 hsb
          split at h
          · exact absurd h (by simp)
          · rename_i back hback
            rw [Option.some.injEq] at h
            subst h
            rw [meas_sunk n2 n2
              (blockFinalizeType (l2.dropLast ++ [Expr.drop back WType.none]))
              t2 hback, drop_meas]
            refine sink_core ?_ (s_back_lt n2 t2 hback)
            split at hsb
            · rename_i L
              split at hsb
              · exact absurd hsb (by simp)
              · rw [Option.some.injEq] at hsb
                rw [← hsb]
                exact ihA L _
            · rw [Option.some.injEq] at hsb
              rw [← hsb]
              exact Meas.le_refl _
        · -- stripped = some non-block
          exact absurd h (by simp)
    · exact absurd h (by simp)
  · exact absurd h (by simp)

theorem Meas.le_of_eq {a c : Meas} (h : a = c) : Meas.le a c := by
  subst h; exact Meas.le_refl a

theorem Meas.shuffle (x a r : Meas) : (x + a) + r = a + (x + r) := by
  cases x; cases a; cases r
  simp only [Meas.add_def, Meas.mk.injEq]
  omega

/-- The splice step of the flattener strictly decreases the measure:
one block node disappears (wrapping middles changes neither the
break-value count nor the block count). -/
theorem splice_lt (acc lst rest : List Expr) (ty : WType) :
    Meas.lt (measL (wrapMiddles (acc.reverse ++ lst ++ rest)))
      (measL acc + (meas (.block Option.none lst ty) + measL rest)) := by
  have hw := wrap_vb (acc.reverse ++ lst ++ rest)
  simp only [measL_append, measL_reverse, Meas.add_def] at hw
  simp only [Meas.lt, measL_append, measL_reverse, meas, Meas.add_def]
  omega

/-- One step of the measure proof for a single pass of the `for` loop:
the result is never bigger than the accumulated input, and strictly
smaller whenever the pass reports a change it performed itself. -/
theorem forPass_mono_step (hasSE : Expr → Bool) (φ : Nat)
    (ihD : ∀ e e', trySink hasSE φ e = Option.some e' →
      Meas.lt (meas e') (meas e))
    (ihE : ∀ l acc sank,
      Meas.le (measL (forPass hasSE φ l acc sank).1) (measL acc + measL l) ∧
      ((forPass hasSE φ l acc sank).2 = true → sank = false →
        Meas.lt (measL (forPass hasSE φ l acc sank).1) (measL acc + measL l))) :
    ∀ l acc sank,
      Meas.le (measL (forPass hasSE (φ + 1) l acc sank).1)
        (measL acc + measL l) ∧
      ((forPass hasSE (φ + 1) l acc sank).2 = true → sank = false →
        Meas.lt (measL (forPass hasSE (φ + 1) l acc sank).1)
          (measL acc + measL l)) := by
  intro l acc sank
  cases l with
  | nil =>
      rw [forPass.eq_def]
      dsimp only
      constructor
      · exact Meas.le_of_eq (by rw [measL_reverse, measL, Meas.add_zero])
      · intro h2 hs
        subst hs
        exact absurd h2 (by simp)
  | cons e rest =>
      rw [forPass.eq_def]
      dsimp only
      cases hs : trySink hasSE φ e with
      | none =>
          simp only [Option.getD_none, Option.isSome_none, Bool.or_false]
          split
          · -- e itself is an anonymous block: splice
            rename_i lst bty
            have hlt := splice_lt acc lst rest bty
            constructor
            · exact Meas.le_of_lt (by simpa [measL] using hlt)
            · intro _ _
              simpa [measL] using hlt
          · -- no rewrite at this element: recurse
            have ih := ihE rest (e :: acc) sank
            constructor
            · refine Meas.le_trans ih.1 (Meas.le_of_eq ?_)
              simp only [measL, Meas.shuffle]
            · intro h2 hsk
              subst hsk
              refine Meas.lt_of_lt_of_le (ih.2 h2 rfl) (Meas.le_of_eq ?_)
              simp only [measL, Meas.shuffle]
      | some e2 =>
          simp only [Option.getD_some, Option.isSome_some, Bool.or_true]
          have hd := ihD e e2 hs
          split
          · -- the sunk block is anonymous: splice it immediately
            rename_i lst ty2
            have hlt := splice_lt acc lst rest ty2
            have hle2 : Meas.le
                (measL acc + (meas (.block Option.none lst ty2) + measL rest))
                (measL acc + (meas e + measL rest)) :=
              Meas.add_le_add (Meas.le_refl _)
                (Meas.add_le_add (Meas.le_of_lt hd) (Meas.le_refl _))
            have hc := Meas.lt_of_lt_of_le hlt hle2
            constructor
            · exact Meas.le_of_lt (by simpa [measL] using hc)
            · intro _ _
              simpa [measL] using hc
          · -- the sunk element stays: recurse with sank' = true
            have ih := ihE rest (e2 :: acc) true
            have hstep : Meas.lt (measL (e2 :: acc) + measL rest)
                (measL acc + (meas e + measL rest)) := by
              have : Meas.lt ((meas e2 + measL acc) + measL rest)
                  ((meas e + measL acc) + measL rest) :=
                Meas.add_lt_add_of_lt_of_le
                  (Meas.add_lt_add_of_lt_of_le hd (Meas.le_refl _))
                  (Meas.le_refl _)
              rw [Meas.shuffle (meas e) (measL acc) (measL rest)] at this
              simpa [measL] using this
            constructor
            · exact Meas.le_of_lt (Meas.lt_of_le_of_lt ih.1 (by
                simpa [measL] using hstep))
            · intro _ _
              exact Meas.lt_of_le_of_lt ih.1 (by simpa [measL] using hstep)

/-- One step of the measure proof for the fixed-point loop: the loop
never increases the measure. -/
theorem obGo_mono_step (hasSE : Expr → Bool) (φ : Nat)
    (hE : ∀ l acc sank,
      Meas.le (measL (forPass hasSE φ l acc sank).1) (measL acc + measL l) ∧
      ((forPass hasSE φ l acc sank).2 = true → sank = false →
        Meas.lt (measL (forPass hasSE φ l acc sank).1)
          (measL acc + measL l))) :
    ∀ k l, Meas.le (measL (obGo hasSE k φ l).1) (measL l) := by
  intro k
  induction k with
  | zero =>
      intro l
      rw [obGo.eq_def]
      exact Meas.le_refl _
  | succ k ihk =>
      intro l
      rw [obGo.eq_def]
      dsimp only
      have hp := (hE l [] false).1
      rw [measL, Meas.zero_add] at hp
      split
      · exact Meas.le_trans (ihk _) hp
      · exact hp

/-- The measure order is well-founded. -/
theorem measlt_wf : WellFounded (fun a c : Meas => Meas.lt a c) := by
  have h4 : WellFounded
      (Prod.Lex (α := Nat) (· < ·)
        (Prod.Lex (α := Nat) (· < ·)
          (Prod.Lex (α := Nat) (β := Nat) (· < ·) (· < ·)))) :=
    WellFounded.prod_lex wellFounded_lt
      (WellFounded.prod_lex wellFounded_lt
        (WellFounded.prod_lex wellFounded_lt wellFounded_lt))
  have hinv : WellFounded
      (InvImage
        (Prod.Lex (α := Nat) (· < ·)
          (Prod.Lex (α := Nat) (· < ·)
            (Prod.Lex (α := Nat) (β := Nat) (· < ·) (· < ·))))
        (fun m : Meas => (m.v, m.b, m.s, m.d))) :=
    InvImage.wf _ h4
  refine Subrelation.wf ?_ hinv
  intro a c h
  rcases a with ⟨av, ab, as, ad⟩
  rcases c with ⟨cv, cb, cs, cd⟩
  simp only [Meas.lt] at h
  unfold InvImage
  dsimp only
  rcases h with h | ⟨h1, h | ⟨h2, h | ⟨h3, h4'⟩⟩⟩
  · exact Prod.Lex.left _ _ h
  · subst h1; exact Prod.Lex.right _ (Prod.Lex.left _ _ h)
  · subst h1; subst h2
    exact Prod.Lex.right _ (Prod.Lex.right _ (Prod.Lex.left _ _ h))
  · subst h1; subst h2; subst h3
    exact Prod.Lex.right _ (Prod.Lex.right _ (Prod.Lex.right _ h4'))

/-- Strong induction on the measure of a list. -/
theorem measL_strong_ind {P : List Expr → Prop}
    (step : ∀ l, (∀ l', Meas.lt (measL l') (measL l) → P l') → P l) :
    ∀ l, P l := by
  have key : ∀ m : Meas, ∀ l, measL l = m → P l := by
    intro m
    induction m using measlt_wf.induction with
    | _ m ih =>
        intro l hl
        refine step l ?_
        intro l' hlt
        exact ih (measL l') (by rw [← hl]; exact hlt) l' rfl
  intro l
  exact key (measL l) l rfl

/-- Measure monotonicity of the flattener/stripper machinery at every
fuel: the walk and the loop never increase the measure, and a
successful drop-sink or a pass that performed a rewrite strictly
decreases it. -/
theorem measure_mono (hasSE : Expr → Bool) : ∀ φ : Nat,
    (∀ L e, Meas.le (meas (bvdWalk hasSE φ L e)) (meas e)) ∧
    (∀ L l, Meas.le (measL (bvdWalkL hasSE φ L l)) (measL l)) ∧
    (∀ e e', trySink hasSE φ e = Option.some e' →
      Meas.lt (meas e') (meas e)) ∧
    (∀ l acc sank,
      Meas.le (measL (forPass hasSE φ l acc sank).1) (measL acc + measL l) ∧
      ((forPass hasSE φ l acc sank).2 = true → sank = false →
        Meas.lt (measL (forPass hasSE φ l acc sank).1)
          (measL acc + measL l))) ∧
    (∀ k l, Meas.le (measL (obGo hasSE k φ l).1) (measL l)) := by
  intro φ
  induction φ using Nat.strongRecOn with
  | _ φ ih =>
      cases φ with
      | zero =>
          have hE0 : ∀ (l acc : List Expr) (sank : Bool),
              Meas.le (measL (forPass hasSE 0 l acc sank).1)
                (measL acc + measL l) ∧
              ((forPass hasSE 0 l acc sank).2 = true → sank = false →
                Meas.lt (measL (forPass hasSE 0 l acc sank).1)
                  (measL acc + measL l)) := by
            intro l acc sank
            rw [forPass.eq_def]
            dsimp only
            constructor
            · exact Meas.le_of_eq (by rw [measL_append, measL_reverse])
            · intro h2 hs
              subst hs
              exact absurd h2 (by simp)
          refine ⟨?_, ?_, ?_, hE0, ?_⟩
          · intro L e; rw [bvdWalk.eq_def]; exact Meas.le_refl _
          · intro L l; rw [bvdWalkL.eq_def]; exact Meas.le_refl _
          · intro e e' h; rw [trySink.eq_def] at h; exact absurd h (by simp)
          · exact obGo_mono_step hasSE 0 hE0
      | succ φ' =>
          obtain ⟨A', B', D', E', F'⟩ := ih φ' (by omega)
          have hA := bvdWalk_mono_step hasSE φ'
            (fun ψ hψ => (ih ψ (by omega)).1) B' F'
          have hB : ∀ L l,
              Meas.le (measL (bvdWalkL hasSE (φ' + 1) L l)) (measL l) := by
            intro L l
            cases l with
            | nil => rw [bvdWalkL.eq_def]; exact Meas.le_refl _
            | cons e r =>
                rw [bvdWalkL.eq_def]
                dsimp only
                simp only [measL]
                exact Meas.add_le_add (A' L e) (B' L r)
          have hD := trySink_lt_step hasSE φ' A'
          have hE := forPass_mono_step hasSE φ' D' E'
          exact ⟨hA, hB, hD, hE, obGo_mono_step hasSE (φ' + 1) hE⟩

/-- **C9.** For every input list and every inner (stripper) fuel, the
`while (more)` fixed-point loop of `optimizeBlock` reaches its "no
change" exit after finitely many iterations: some iteration budget `k`
makes the loop finish. -/
theorem flattener_loop_terminates (hasSE : Expr → Bool) (φ : Nat)
    (l : List Expr) : ∃ k, (obGo hasSE k φ l).2.2 = true := by
  induction l using measL_strong_ind with
  | step l ih =>
    cases hp : (forPass hasSE φ l [] false).2 with
    | false =>
        refine ⟨1, ?_⟩
        rw [obGo.eq_def]
        dsimp only
        rw [hp]
        rfl
    | true =>
        have hlt := ((measure_mono hasSE φ).2.2.2.1 l [] false).2 hp rfl
        rw [measL, Meas.zero_add] at hlt
        obtain ⟨k, hk⟩ := ih _ hlt
        refine ⟨k + 1, ?_⟩
        rw [obGo.eq_def]
        dsimp only
        rw [hp]
        simpa using hk

/-- A pass over elements that set `sank` reports a change. -/
theorem forPass_sank_prop (hasSE : Expr → Bool) :
    ∀ (φ : Nat) (l acc : List Expr),
      (forPass hasSE φ l acc true).2 = true := by
  intro φ
  induction φ with
  | zero => intro l acc; rw [forPass.eq_def]
  | succ φ ih =>
      intro l acc
      cases l with
      | nil => rw [forPass.eq_def]
      | cons e rest =>
          rw [forPass.eq_def]
          dsimp only
          split
          · rfl
          · simpa using ih rest _

/-- A pass that reports no change leaves the list as it was. -/
theorem forPass_no_change (hasSE : Expr → Bool) :
    ∀ (φ : Nat) (l acc : List Expr) (sank : Bool),
      (forPass hasSE φ l acc sank).2 = false →
      (forPass hasSE φ l acc sank).1 = acc.reverse ++ l ∧ sank = false := by
  intro φ
  induction φ with
  | zero =>
      intro l acc sank h
      rw [forPass.eq_def] at h ⊢
      exact ⟨rfl, h⟩
  | succ φ ih =>
      intro l acc sank h
      rw [forPass.eq_def] at h ⊢
      cases l with
      | nil =>
          dsimp only at h ⊢
          exact ⟨by simp, h⟩
      | cons e rest =>
          dsimp only at h ⊢
          cases hs : trySink hasSE φ e with
          | none =>
              simp only [hs, Option.getD_none, Option.isSome_none,
                Bool.or_false] at h ⊢
              split at h
              · exact absurd h (by simp)
              · obtain ⟨h1, h2⟩ := ih rest (e :: acc) sank h
                refine ⟨?_, h2⟩
                rw [h1]
                simp
          | some e2 =>
              simp only [hs, Option.getD_some, Option.isSome_some,
                Bool.or_true] at h
              split at h
              · exact absurd h (by simp)
              · rw [forPass_sank_prop hasSE φ rest (e2 :: acc)] at h
                exact absurd h (by simp)

/-- When the fixed-point loop finishes, its result is a fixed point of
the pass: one more pass over it reports no change. -/
theorem obGo_finished_fix (hasSE : Expr → Bool) (φ : Nat) :
    ∀ (k : Nat) (l : List Expr), (obGo hasSE k φ l).2.2 = true →
      forPass hasSE φ (obGo hasSE k φ l).1 [] false
        = ((obGo hasSE k φ l).1, false) := by
  intro k
  induction k with
  | zero => intro l h; rw [obGo.eq_def] at h; exact absurd h (by simp)
  | succ k ihk =>
      intro l h
      rw [obGo.eq_def] at h ⊢
      dsimp only at h ⊢
      by_cases hp : (forPass hasSE φ l [] false).2 = true
      · rw [if_pos hp] at h ⊢
        exact ihk _ h
      · rw [if_neg hp] at h ⊢
        dsimp only
        have hnc := forPass_no_change hasSE φ l [] false
          (by revert hp; cases (forPass hasSE φ l [] false).2 <;> simp)
        have : forPass hasSE φ l [] false = (l, false) := by
          have h2 := hnc.1
          simp only [List.reverse_nil, List.nil_append] at h2
          have h3 : (forPass hasSE φ l [] false).2 = false := by
            revert hp; cases (forPass hasSE φ l [] false).2 <;> simp
          calc forPass hasSE φ l [] false
              = ((forPass hasSE φ l [] false).1,
                 (forPass hasSE φ l [] false).2) := rfl
            _ = (l, false) := by rw [h2, h3]
        rw [this]
        exact this

/-- **C8 (amended).** `optimizeBlock` itself is idempotent: once its
fixed-point loop finishes, running it again on the result changes
nothing.  (The whole pass, by contrast, is not idempotent — see the
counterexample.) -/
theorem optimizeBlock_idempotent (hasSE : Expr → Bool) (fuel : Nat)
    (n : Option Nat) (l : List Expr) (t : WType)
    (h : (obGo hasSE fuel fuel l).2.2 = true) (hf : 1 ≤ fuel) :
    optimizeBlockF hasSE fuel (optimizeBlockF hasSE fuel (.block n l t))
      = optimizeBlockF hasSE fuel (.block n l t) := by
  have hfix := obGo_finished_fix hasSE fuel fuel l h
  cases fuel with
  | zero => exact absurd hf (by simp)
  | succ f =>
      show optimizeBlockF hasSE (f + 1)
          (.block n (obGo hasSE (f + 1) (f + 1) l).1 t) = _
      unfold optimizeBlockF
      dsimp only
      rw [obGo.eq_def]
      dsimp only
      rw [hfix]
      simp

/-- Witness for `optimizeBlock_idempotent` at a concrete block. -/
theorem optimizeBlock_idempotent_witness :
    optimizeBlockF (fun _ => false) 2
        (optimizeBlockF (fun _ => false) 2
          (.block Option.none
            [.block Option.none [.other 0 [] WType.none] WType.none]
            WType.none))
      = optimizeBlockF (fun _ => false) 2
          (.block Option.none
            [.block Option.none [.other 0 [] WType.none] WType.none]
            WType.none) :=
  optimizeBlock_idempotent (fun _ => false) 2 Option.none
    [.block Option.none [.other 0 [] WType.none] WType.none] WType.none
    (by simp [obGo, forPass, trySink, wrapMiddles]) (by simp)

/-- Counterexample to C8 as stated: the pass is not idempotent.  On
`Drop(Block[X; Block_9[Y; Z]])` the first run hoists the drop's block
(leaving `Block[X; Drop(Block_9[Y; Z])]`); only the second run's
flattener sinks the drop into the labeled block.  The effect oracle is
the constant-false one: the input contains no side-effecting node. -/
theorem mergeBlocks_not_idempotent_counterexample :
    runPass (fun _ => false) (fun _ _ => false) 5
        (.drop (.block Option.none
          [.other 0 [] WType.none,
           .block (Option.some 9)
             [.other 1 [] WType.none, .other 2 [] WType.i32] WType.i32]
          WType.i32) WType.none)
      = .block Option.none
          [.other 0 [] WType.none,
           .drop (.block (Option.some 9)
             [.other 1 [] WType.none, .other 2 [] WType.i32] WType.i32)
             WType.none]
          WType.none ∧
    runPass (fun _ => false) (fun _ _ => false) 5
        (.block Option.none
          [.other 0 [] WType.none,
           .drop (.block (Option.some 9)
             [.other 1 [] WType.none, .other 2 [] WType.i32] WType.i32)
             WType.none]
          WType.none)
      = .block Option.none
          [.other 0 [] WType.none,
           .block (Option.some 9)
             [.other 1 [] WType.none,
              .drop (.other 2 [] WType.i32) WType.none] WType.none]
          WType.none ∧
    (Expr.drop (.block (Option.some 9)
        [.other 1 [] WType.none, .other 2 [] WType.i32] WType.i32)
        WType.none)
      ≠ (Expr.block (Option.some 9)
          [.other 1 [] WType.none,
           .drop (.other 2 [] WType.i32) WType.none] WType.none) := by
  refine ⟨?_, ?_, by simp⟩
  · simp [runPass, runPassL, runPassO, optimizeBlockF, obGo, forPass,
      trySink, wrapMiddles, optimizeS, applyOuter, isConcreteType,
      Expr.type, hasUnreachableChildL]
  · simp [runPass, runPassL, runPassO, optimizeBlockF, obGo, forPass,
      trySink, wrapMiddles, optimizeS, applyOuter, isConcreteType,
      Expr.type, hasUnreachableChildL, pfFound, pfProblem, pfProblemL,
      brIfsCount, brIfsCountL, droppedBrIfsCount, droppedBrIfsCountL,
      bvdWalk, bvdWalkL, bvdHookDrop, blockFinalizeType]

end MergeBlocksPass
